import Mathlib

/-
Verification development for mdtocgen (main.go): a Markdown table-of-contents
generator.  The Go program walks a directory, collects `.md` files (skipping
`README.md`), builds a tree of `MDFileInfo` nodes, and renders it as a nested
Markdown outline.  This file gives a shallow embedding of the program and
settles the specification claims against it.

The filesystem walk is modelled as a list of `WalkEntry` events (path, isDir,
readable content, optional walk error), in the order `filepath.Walk` would
deliver them; file contents are modelled as the list of lines the
`bufio.Scanner` would produce (`none` when the file cannot be opened).
-/

namespace Mdtocgen

/-! ## Embeddings of the Go standard library string functions used by main.go -/
/-- Byte-order comparison of strings, as Go compares strings. UTF-8 byte order
coincides with code-point order, so we compare `Char` lists lexicographically. -/
def ltChars : List Char → List Char → Bool
  | [], [] => false
  | [], _ :: _ => true
  | _ :: _, [] => false
  | a :: as, b :: bs => if a < b then true else if b < a then false else ltChars as bs

/-- Go `a <= b` on strings. -/
def strLe (a b : String) : Bool := !(ltChars b.toList a.toList)

/-- Splitting a character list on a separator, as Go `strings.Split` with a
one-character separator: `strings.Split("", sep) = [""]`. -/
def splitChars (sep : Char) : List Char → List (List Char)
  | [] => [[]]
  | c :: cs =>
    match splitChars sep cs with
    | [] => [[]]
    | h :: t => if c = sep then [] :: h :: t else (c :: h) :: t

/-- Go `strings.Split(s, "/")`. -/
def splitOnSlash (s : String) : List String :=
  (splitChars '/' s.toList).map String.mk

/-- Tests whether `pat` is a leading segment of `l`. -/
def leadChars (pat l : List Char) : Bool := decide (pat = l.take pat.length)

/-- Replaces the first occurrence of `pat` in the list by `rep`. -/
def replaceAux (pat rep : List Char) : List Char → List Char
  | [] => []
  | c :: cs =>
    if leadChars pat (c :: cs) then rep ++ (c :: cs).drop pat.length
    else c :: replaceAux pat rep cs

/-- Go `strings.Replace(s, pat, rep, 1)`: replace the first occurrence of
`pat`; with an empty `pat` insert `rep` at the start. -/
def replaceFirst (s pat rep : String) : String :=
  if pat = "" then rep ++ s
  else String.mk (replaceAux pat.toList rep.toList s.toList)

/-- Go `filepath.Ext`: the suffix of the final path element starting at its
final dot, or empty if the final element has no dot. -/
def filepathExt (p : String) : String :=
  let pre := p.toList.reverse.takeWhile (fun c => c ≠ '/')
  if pre.contains '.' then String.mk ((pre.takeWhile (fun c => c ≠ '.')) ++ ['.']).reverse
  else ""

/-- Go `filepath.Base`: strip trailing slashes, then keep the last element;
empty path gives ".", all-slash path gives "/". -/
def filepathBase (p : String) : String :=
  if p = "" then "."
  else
    let cs := p.toList.reverse.dropWhile (fun c => c = '/')
    if cs = [] then "/"
    else String.mk (cs.takeWhile (fun c => c ≠ '/')).reverse

/-- Segment loop of Go `filepath.Clean` (unix): drop empty and "." segments,
let ".." pop a previous segment (kept literally at the start of a relative
path, dropped at the root of an absolute one).  `out` is accumulated in
reverse. -/
def cleanLoop (rooted : Bool) : List (List Char) → List (List Char) → List (List Char)
  | out, [] => out
  | out, seg :: rest =>
    if seg = [] ∨ seg = ['.'] then cleanLoop rooted out rest
    else if seg = ['.', '.'] then
      match out with
      | [] => if rooted then cleanLoop rooted [] rest else cleanLoop rooted [['.', '.']] rest
      | o :: os =>
        if o = ['.', '.'] then cleanLoop rooted (seg :: o :: os) rest
        else cleanLoop rooted os rest
    else cleanLoop rooted (seg :: out) rest

/-- Joins segments with a slash separator. -/
def intercalateSlash : List (List Char) → List Char
  | [] => []
  | [s] => s
  | s :: t => s ++ '/' :: intercalateSlash t

/-- Go `filepath.Clean` on unix paths. -/
def pathClean (p : String) : String :=
  if p = "" then "."
  else
    let rooted := p.toList.take 1 = ['/']
    let out := (cleanLoop rooted [] (splitChars '/' p.toList)).reverse
    if rooted then String.mk ('/' :: intercalateSlash out)
    else if out = [] then "."
    else String.mk (intercalateSlash out)

/-- Go `filepath.Dir`: everything through the final slash, cleaned; "." when
there is no slash. -/
def filepathDir (p : String) : String :=
  pathClean (String.mk (p.toList.reverse.dropWhile (fun c => c ≠ '/')).reverse)

/-- Go `filepath.Join` restricted to two arguments: join the non-empty parts
with a slash and clean the result. -/
def filepathJoin (a b : String) : String :=
  if a ≠ "" then pathClean (a ++ "/" ++ b)
  else if b ≠ "" then pathClean b
  else ""

/-- Alphanumeric ASCII byte. -/
def isAlphaNumByte (n : Nat) : Bool :=
  (decide (97 ≤ n) && decide (n ≤ 122)) || (decide (65 ≤ n) && decide (n ≤ 90)) ||
    (decide (48 ≤ n) && decide (n ≤ 57))

/-- Byte escaping decision of Go `url.PathEscape` (mode `encodePathSegment`):
unreserved bytes and `$ & + : = @` stay, everything else - including `/ ; , ?`
and all non-ASCII bytes - is percent-escaped. -/
def shouldEscapePathSeg (n : Nat) : Bool :=
  if isAlphaNumByte n then false
  else if n = 45 || n = 95 || n = 46 || n = 126 then false
  else if n = 36 || n = 38 || n = 43 || n = 58 || n = 61 || n = 64 then false
  else true

/-- UTF-8 bytes of a character, as Go sees the string. -/
def utf8Bytes (c : Char) : List Nat :=
  let n := c.toNat
  if n < 128 then [n]
  else if n < 2048 then [192 + n / 64, 128 + n % 64]
  else if n < 65536 then [224 + n / 4096, 128 + n / 64 % 64, 128 + n % 64]
  else [240 + n / 262144, 128 + n / 4096 % 64, 128 + n / 64 % 64, 128 + n % 64]

/-- Uppercase hexadecimal digit. -/
def hexUpper (n : Nat) : Char :=
  if n < 10 then Char.ofNat (48 + n) else Char.ofNat (55 + n)

/-- Percent-escaped form of one byte, with uppercase hexadecimal digits. -/
def escapeByte (n : Nat) : List Char := ['%', hexUpper (n / 16), hexUpper (n % 16)]

/-- Escaped bytes of one character under `url.PathEscape`. -/
def escapeChar (bytes : List Nat) : List Char :=
  match bytes with
  | [] => []
  | n :: t => (if shouldEscapePathSeg n then escapeByte n else [Char.ofNat n]) ++ escapeChar t

/-- Character loop of `url.PathEscape`. -/
def pathEscapeChars : List Char → List Char
  | [] => []
  | c :: cs => escapeChar (utf8Bytes c) ++ pathEscapeChars cs

/-- Go `url.PathEscape`. -/
def urlPathEscape (s : String) : String := String.mk (pathEscapeChars s.toList)

/-- Go `strings.Repeat s n`. -/
def stringsRepeat (s : String) : Nat → String
  | 0 => ""
  | n + 1 => s ++ stringsRepeat s n

/-- Concatenation of a list of strings, in order. -/
def joinList : List String → String
  | [] => ""
  | s :: r => s ++ joinList r

/-! ## Title extractor (GetMDTitle, main.go lines 337-355) -/
/-- Whitespace class of Go regexp `\s`. -/
def isGoSpace (c : Char) : Bool :=
  c = ' ' || c = '\t' || c = '\n' || c = Char.ofNat 12 || c = '\r'

/-- Matching of one line against the compiled pattern `^#\s+(.*)$` with Go
(leftmost, greedy) submatch semantics: a leading hash, a maximal nonempty run
of whitespace, and the rest captured, which `.*` can cover only when it
contains no newline. -/
def h1Capture (line : List Char) : Option (List Char) :=
  match line with
  | c0 :: c :: rest =>
    if c0 = '#' ∧ isGoSpace c = true then
      if ((c :: rest).dropWhile isGoSpace).contains '\n' then none
      else some ((c :: rest).dropWhile isGoSpace)
    else none
  | _ => none

/-- Scanner loop of GetMDTitle: return the first submatch of the first
matching line, or empty when no line matches. -/
def scanH1 : List String → String
  | [] => ""
  | l :: ls =>
    match h1Capture l.toList with
    | some cap => String.mk cap
    | none => scanH1 ls

/-- GetMDTitle: `none` models a file that cannot be opened (os.Open error),
which returns the empty string; otherwise the scanner loop runs over the
lines. -/
def GetMDTitle : Option (List String) → String
  | none => ""
  | some lines => scanH1 lines

/-! ## The tree of MDFileInfo nodes (main.go lines 217-223) -/
mutual

/-- The Go struct MDFileInfo: IsDir, Children, Title, Level, Path.  The
children map is represented as an association chain with unique keys. -/
inductive MDFileInfo : Type where
  | mk (isDir : Bool) (children : MDChildren) (title : String) (level : Nat) (path : String) : MDFileInfo

/-- Association chain playing the role of Go `map[string]MDFileInfo`. -/
inductive MDChildren : Type where
  | nil : MDChildren
  | cons (key : String) (val : MDFileInfo) (rest : MDChildren) : MDChildren

end

def MDFileInfo.isDir : MDFileInfo → Bool
  | .mk b _ _ _ _ => b

def MDFileInfo.children : MDFileInfo → MDChildren
  | .mk _ c _ _ _ => c

def MDFileInfo.title : MDFileInfo → String
  | .mk _ _ t _ _ => t

def MDFileInfo.level : MDFileInfo → Nat
  | .mk _ _ _ l _ => l

def MDFileInfo.path : MDFileInfo → String
  | .mk _ _ _ _ p => p

/-- Map lookup. -/
def MDChildren.find? : MDChildren → String → Option MDFileInfo
  | .nil, _ => none
  | .cons k v r, key => if k = key then some v else MDChildren.find? r key

/-- Map update `m[key] = v`: replace the binding if the key is present,
append a new binding otherwise. -/
def MDChildren.set : MDChildren → String → MDFileInfo → MDChildren
  | .nil, key, v => .cons key v .nil
  | .cons k w r, key, v => if k = key then .cons key v r else .cons k w (MDChildren.set r key v)

/-- Keys of the children map. -/
def MDChildren.keys : MDChildren → List String
  | .nil => []
  | .cons k _ r => k :: MDChildren.keys r

/-! ## Tree builder (ListMDFiles, main.go lines 277-323) -/
/-- One visit of the `filepath.Walk` callback: the visited path, whether it is
a directory, the lines of the file (`none` when opening fails), and the error
`filepath.Walk` passes for this visit (`some` aborts the walk). -/
structure WalkEntry where
  path : String
  isDir : Bool
  content : Option (List String)
  err : Option String

/-- Filter in the walk callback (line 291): a regular file, not named
README.md, with extension .md.  `info.Name()` is the base name of the path. -/
def eligibleB (e : WalkEntry) : Bool :=
  !e.isDir && !(filepathBase e.path == "README.md") && (filepathExt e.path == ".md")

/-- The root node built at lines 278-284. -/
def rootInfo : MDFileInfo := .mk true .nil "" 0 "."

/-- Directory-descent loop and final document insert of the callback (lines
294-315): walk the relative directory segments, skipping ".", creating any
missing directory node with level one more than its parent and a path-escaped
joined path; finally bind the document under its base name. -/
def insertWalk (p : MDFileInfo) (dirs : List String) (name title escRel : String) : MDFileInfo :=
  match dirs with
  | [] =>
    .mk p.isDir (p.children.set name (.mk false .nil title (p.level + 1) escRel)) p.title p.level p.path
  | d :: ds =>
    if d = "." then insertWalk p ds name title escRel
    else
      match p.children.find? d with
      | some c =>
        .mk p.isDir (p.children.set d (insertWalk c ds name title escRel)) p.title p.level p.path
      | none =>
        let nd : MDFileInfo := .mk true .nil d (p.level + 1) (urlPathEscape (filepathJoin p.path d))
        .mk p.isDir (p.children.set d (insertWalk nd ds name title escRel)) p.title p.level p.path

/-- Body of the walk callback for an eligible file (lines 292-315): compute
the relative path, split its directory part, and insert the document with its
extracted title and path-escaped relative path. -/
def processEntry (dirPath : String) (acc : MDFileInfo) (e : WalkEntry) : MDFileInfo :=
  let relPath := replaceFirst e.path dirPath "."
  let dirs := splitOnSlash (filepathDir relPath)
  insertWalk acc dirs (filepathBase e.path) (GetMDTitle e.content) (urlPathEscape relPath)

/-- The walk: visits are processed in order; a visit error is returned by the
callback, aborting `filepath.Walk`, and ListMDFiles then returns the tree
built so far together with that error (line 320, `return root, err`). -/
def walkFold (dirPath : String) (acc : MDFileInfo) : List WalkEntry → MDFileInfo × Option String
  | [] => (acc, none)
  | e :: es =>
    match e.err with
    | some msg => (acc, some msg)
    | none => walkFold dirPath (if eligibleB e then processEntry dirPath acc e else acc) es

/-- ListMDFiles over a modelled walk. -/
def ListMDFiles (dirPath : String) (events : List WalkEntry) : MDFileInfo × Option String :=
  walkFold dirPath rootInfo events

/-- Root title assignment done by main (lines 243-250) after a successful
walk. -/
def setTitle (t : MDFileInfo) (title : String) : MDFileInfo :=
  .mk t.isDir t.children title t.level t.path

/-! ## Outline renderer (CreateTocTree, main.go lines 366-401) -/
/-- Ascending relation used to model `sort.Strings`. -/
def StrLeP (a b : String) : Prop := strLe a b = true

/-- Descending relation used to model `sort.Sort(sort.Reverse(...))`. -/
def StrGeP (a b : String) : Prop := strLe b a = true

instance : DecidableRel StrLeP := fun a b => inferInstanceAs (Decidable (strLe a b = true))

instance : DecidableRel StrGeP := fun a b => inferInstanceAs (Decidable (strLe b a = true))

/-- Go `sort.Strings`: ascending byte order. -/
def sortStringsAsc (l : List String) : List String := l.insertionSort StrLeP

/-- Go `sort.Sort(sort.Reverse(sort.StringSlice(...)))`: descending byte
order. -/
def sortStringsDesc (l : List String) : List String := l.insertionSort StrGeP

/-- Lookup of the rendered output of the child bound to a key; the default is
never reached because the keys looked up are exactly the bound keys. -/
def findRendered : List (String × String) → String → String
  | [], _ => ""
  | (k, v) :: r, key => if k = key then v else findRendered r key

mutual

/-- CreateTocTree: the level switch (lines 370-385) followed by the children
loop over the sorted keys (lines 386-399).  Rendering of `md.Children[key]`
is hoisted into `renderedChildren`, an association list holding each child's
rendered output under its key, which the sorted-key loop then looks up; for a
map (unique keys) this is the same string Go builds. -/
def CreateTocTree (md : MDFileInfo) (indent : String) (sortAsc : Bool) : String :=
  match md with
  | .mk isDir cs title level path =>
    let toc :=
      if level = 0 then "# " ++ title ++ "\n"
      else if level = 1 then
        if isDir then "\n## " ++ title ++ "\n\n"
        else "\n## [" ++ title ++ "](" ++ path ++ ")\n\n"
      else
        if isDir then stringsRepeat indent (level - 2) ++ "- " ++ title ++ "\n"
        else stringsRepeat indent (level - 2) ++ "- [" ++ title ++ "](" ++ path ++ ")\n"
    let ks := MDChildren.keys cs
    let sortedKeys := if sortAsc then sortStringsAsc ks else sortStringsDesc ks
    toc ++ joinList (sortedKeys.map (findRendered (renderedChildren cs indent sortAsc)))

/-- Rendered output of every child, keyed. -/
def renderedChildren : MDChildren → String → Bool → List (String × String)
  | .nil, _, _ => []
  | .cons k v r, indent, sortAsc =>
    (k, CreateTocTree v indent sortAsc) :: renderedChildren r indent sortAsc

end

/-! ## Observations on the tree used by the claims -/
mutual

/-- Number of document (non-directory) nodes in the tree. -/
def countDocs : MDFileInfo → Nat
  | .mk isDir cs _ _ _ => (if isDir then 0 else 1) + countDocsC cs

/-- Number of document nodes below a children map. -/
def countDocsC : MDChildren → Nat
  | .nil => 0
  | .cons _ v r => countDocs v + countDocsC r

end

mutual

/-- Recursive level invariant: every child's level is one more than its
parent's level. -/
def levelsOKFrom : MDFileInfo → Bool
  | .mk _ cs _ l _ => levelsOKC l cs

/-- Level invariant for all children of a node of level `l`. -/
def levelsOKC : Nat → MDChildren → Bool
  | _, .nil => true
  | l, .cons _ v r => (v.level == l + 1) && levelsOKFrom v && levelsOKC l r

end

/-- All strings in the list are distinct. -/
def distinctStr : List String → Bool
  | [] => true
  | s :: r => !(r.contains s) && distinctStr r

mutual

/-- No name collisions: the keys of every children map in the tree are
pairwise distinct. -/
def noCollisionsB : MDFileInfo → Bool
  | .mk _ cs _ _ _ => distinctStr (MDChildren.keys cs) && noCollisionsC cs

/-- No name collisions below a children map. -/
def noCollisionsC : MDChildren → Bool
  | .nil => true
  | .cons _ v r => noCollisionsB v && noCollisionsC r

end

/-- Navigation: is there a node at this position (sequence of child keys)? -/
def existsAt : MDFileInfo → List String → Bool
  | _, [] => true
  | t, k :: ks =>
    match t.children.find? k with
    | none => false
    | some c => existsAt c ks

/-- Value of the `Path` field of the node at a position, if any. -/
def pathAt : MDFileInfo → List String → Option String
  | t, [] => some t.path
  | t, k :: ks =>
    match t.children.find? k with
    | none => none
    | some c => pathAt c ks

/-- Value of the `Title` field of the node at a position, if any. -/
def titleAt : MDFileInfo → List String → Option String
  | t, [] => some t.title
  | t, k :: ks =>
    match t.children.find? k with
    | none => none
    | some c => titleAt c ks

/-- The tree position a walked file is inserted at: the "."-free directory
segments of its relative path followed by its base name. -/
def entryPos (dirPath : String) (e : WalkEntry) : List String :=
  (splitOnSlash (filepathDir (replaceFirst e.path dirPath "."))).filter (fun d => !(d == "."))
    ++ [filepathBase e.path]

/-- Is `p` a leading segment (or all) of `q`? -/
def isLeadOf (p q : List String) : Bool := decide (p = q.take p.length)

/-- Pairwise: no position in the list is a leading segment of another.  On a
real filesystem the walked file paths always satisfy this (a file is never
also a directory). -/
def conflictFreeB : List (List String) → Bool
  | [] => true
  | p :: ps => ps.all (fun q => !(isLeadOf p q) && !(isLeadOf q p)) && conflictFreeB ps

/-- The level switch of CreateTocTree (lines 370-385), as one line. -/
def tocLine (md : MDFileInfo) (indent : String) : String :=
  if md.level = 0 then "# " ++ md.title ++ "\n"
  else if md.level = 1 then
    if md.isDir then "\n## " ++ md.title ++ "\n\n"
    else "\n## [" ++ md.title ++ "](" ++ md.path ++ ")\n\n"
  else
    if md.isDir then stringsRepeat indent (md.level - 2) ++ "- " ++ md.title ++ "\n"
    else stringsRepeat indent (md.level - 2) ++ "- [" ++ md.title ++ "](" ++ md.path ++ ")\n"

/-! ## Claim C1 -/
/-- Walk of a root directory holding `docs/guide.md` (content `# Guide`) and
`README.md`, the scenario named by claim C1. -/
def walkC1 : List WalkEntry :=
  [⟨"/r", true, none, none⟩, ⟨"/r/README.md", false, some ["# Readme"], none⟩,
   ⟨"/r/docs", true, none, none⟩, ⟨"/r/docs/guide.md", false, some ["# Guide"], none⟩]

/-! ## Claim C2 -/
/-- A walk that reads one document and then hits an I/O error. -/
def walkC2 : List WalkEntry :=
  [⟨"/r", true, none, none⟩, ⟨"/r/a.md", false, some ["# A"], none⟩,
   ⟨"/r/locked", true, none, some "EIO"⟩]

/-! ## Claim C4 -/
/-- Spec-side heading test: a line beginning, with no leading whitespace,
with one hash followed by at least one whitespace character (hence never a
second hash). -/
def specH1 (l : String) : Bool :=
  match l.toList with
  | c0 :: c :: _ => (c0 == '#') && isGoSpace c
  | _ => false

/-- Spec-side captured text of a heading line: what follows the hash once the
whitespace run is dropped. -/
def specCapture (l : String) : String :=
  match l.toList with
  | _ :: rest => String.mk (rest.dropWhile isGoSpace)
  | [] => ""

/-! ## Claim C3 -/
mutual

/-- The ascending rendering with the sibling groupings reversed at every
level: each node keeps its own line, while its children's blocks are emitted
in reverse ascending key order, themselves transformed the same way. -/
def reverseGroupingsAll (md : MDFileInfo) (indent : String) : String :=
  match md with
  | .mk isDir cs title level path =>
    tocLine (.mk isDir cs title level path) indent ++
      joinList ((sortStringsAsc (MDChildren.keys cs)).reverse.map
        (findRendered (revChildren cs indent)))

/-- The reversed-grouping transform of every child, keyed. -/
def revChildren : MDChildren → String → List (String × String)
  | .nil, _ => []
  | .cons k v r, indent => (k, reverseGroupingsAll v indent) :: revChildren r indent

end

/-- The claim's transform: the ascending rendering with only the top-level
groupings (the blocks of the root's children) and the second-level groupings
(the blocks of each level-1 node's children) reversed, everything deeper kept
in ascending order. -/
def reverseTop2 (md : MDFileInfo) (indent : String) : String :=
  tocLine md indent ++
    joinList ((sortStringsAsc md.children.keys).reverse.map (fun k =>
      match md.children.find? k with
      | some c =>
        tocLine c indent ++
          joinList ((sortStringsAsc c.children.keys).reverse.map (fun k2 =>
            match c.children.find? k2 with
            | some g => CreateTocTree g indent true
            | none => ""))
      | none => ""))

/-- A three-deep tree: root, directory d, directory e, two documents. -/
def ceTree : MDFileInfo :=
  .mk true
    (.cons "d"
      (.mk true
        (.cons "e"
          (.mk true
            (.cons "a.md" (.mk false .nil "A" 3 "pa")
              (.cons "b.md" (.mk false .nil "B" 3 "pb") .nil))
            "e" 2 "pe")
          .nil)
        "d" 1 "pd")
      .nil)
    "T" 0 "."

/-! ## Claim C5 -/
/-- Key order on keyed rendered blocks, ascending. -/
def pairLeS (a b : String × String) : Prop := StrLeP a.1 b.1

/-- Key order on keyed rendered blocks, descending. -/
def pairGeS (a b : String × String) : Prop := StrGeP a.1 b.1

instance : DecidableRel pairLeS := fun a b => inferInstanceAs (Decidable (strLe a.1 b.1 = true))

instance : DecidableRel pairGeS := fun a b => inferInstanceAs (Decidable (strLe b.1 a.1 = true))

mutual

/-- Rendering contract in the words of the specification: a node emits its
depth-dependent line, then the blocks of its children ordered by sorting the
children on their raw keys, ascending or descending as the flag says. -/
def specRender (md : MDFileInfo) (indent : String) (asc : Bool) : String :=
  match md with
  | .mk isDir cs title level path =>
    tocLine (.mk isDir cs title level path) indent ++
      joinList ((if asc then (specRenderPairs cs indent asc).insertionSort pairLeS
                 else (specRenderPairs cs indent asc).insertionSort pairGeS).map Prod.snd)

/-- Keyed spec-side blocks of every child. -/
def specRenderPairs : MDChildren → String → Bool → List (String × String)
  | .nil, _, _ => []
  | .cons k v r, indent, asc => (k, specRender v indent asc) :: specRenderPairs r indent asc

end

/-- Sibling scenario: a root, one directory `docs`, and two documents `a.md`
(title Alpha) and `b.md` (title Beta). -/
def abTree : MDFileInfo :=
  .mk true
    (.cons "docs"
      (.mk true
        (.cons "b.md" (.mk false .nil "Beta" 2 "pb")
          (.cons "a.md" (.mk false .nil "Alpha" 2 "pa") .nil))
        "docs" 1 "pd")
      .nil)
    "T" 0 "."

/-- A nested walk with ineligible files, a README, and three documents. -/
def evsC6 : List WalkEntry :=
  [⟨"/r", true, none, none⟩,
   ⟨"/r/README.md", false, some ["# Readme"], none⟩,
   ⟨"/r/notes.txt", false, some ["just text"], none⟩,
   ⟨"/r/a.md", false, some ["# A"], none⟩,
   ⟨"/r/docs", true, none, none⟩,
   ⟨"/r/docs/b.md", false, some ["# B"], none⟩,
   ⟨"/r/docs/sub", true, none, none⟩,
   ⟨"/r/docs/sub/c.md", false, none, none⟩]

/-- Rebuilding a string from its character data gives the string back. -/
theorem string_mk_data (s : String) : String.mk s.data = s := rfl

/-- Unfolding CreateTocTree into its own line and the rendered children. -/
theorem CreateTocTree_unfold (isDir : Bool) (cs : MDChildren) (title : String)
    (level : Nat) (path : String) (indent : String) (b : Bool) :
    CreateTocTree (.mk isDir cs title level path) indent b =
      tocLine (.mk isDir cs title level path) indent ++
        joinList ((if b then sortStringsAsc cs.keys else sortStringsDesc cs.keys).map
          (findRendered (renderedChildren cs indent b))) := by
  rw [CreateTocTree]
  rfl

/-- C1: the claim states that a document's linkTarget keeps its forward
slashes unescaped and starts with "./", and that the scenario renders the
item `- [Guide](./docs/guide.md)`.  Evaluating the code on that exact
scenario shows `url.PathEscape` escapes the slashes: the stored linkTarget is
`.%2Fdocs%2Fguide.md` and the rendered outline carries the escaped link, so
the produced output differs from the one the claim requires. -/
theorem C1_linkTarget_escapes_slashes :
    pathAt (ListMDFiles "/r" walkC1).1 ["docs", "guide.md"] = some ".%2Fdocs%2Fguide.md" ∧
    CreateTocTree (setTitle (ListMDFiles "/r" walkC1).1 "r") "  " true
      = "# r\n\n## docs\n\n- [Guide](.%2Fdocs%2Fguide.md)\n" ∧
    ("# r\n\n## docs\n\n- [Guide](.%2Fdocs%2Fguide.md)\n"
      = "# r\n\n## docs\n\n- [Guide](./docs/guide.md)\n") = False := by
  refine ⟨by decide, by decide, ?_⟩
  simp only [eq_iff_iff, iff_false]
  decide

/-- C2 counterexample: the claim says no partial tree is returned on error,
but `return root, err` (line 320) hands back the partially built tree next to
the error: after one document and then a walk error, the error is surfaced
and the returned tree already contains that one document. -/
theorem C2_partial_tree_counterexample :
    (ListMDFiles "/r" walkC2).2 = some "EIO" ∧
    countDocs (ListMDFiles "/r" walkC2).1 = 1 := by
  refine ⟨by decide, by decide⟩

/-- C2 amended: a walk error makes ListMDFiles fail as a whole - the error is
surfaced to the caller and no later entry is processed - while the tree value
returned beside the error is the partial tree built from the entries before
the error. -/
theorem C2_walk_error_aborts (dirPath : String) (pre post : List WalkEntry)
    (e : WalkEntry) (msg : String) (he : e.err = some msg)
    (hpre : ∀ x ∈ pre, x.err = none) :
    ListMDFiles dirPath (pre ++ e :: post) = ((ListMDFiles dirPath pre).1, some msg) := by
  unfold ListMDFiles
  generalize rootInfo = acc
  induction pre generalizing acc with
  | nil => simp [walkFold, he]
  | cons x xs ih =>
    have hx : x.err = none := hpre x (by simp)
    simp only [List.cons_append, walkFold, hx]
    exact ih (fun y hy => hpre y (List.mem_cons_of_mem _ hy)) _

/-- Concrete use of the amended C2 statement. -/
theorem C2_walk_error_aborts_witness :
    (⟨"/r/locked", true, none, some "EIO"⟩ : WalkEntry).err = some "EIO" ∧
    (∀ x ∈ [(⟨"/r", true, none, none⟩ : WalkEntry),
            ⟨"/r/a.md", false, some ["# A"], none⟩], x.err = none) ∧
    ListMDFiles "/r"
      ([⟨"/r", true, none, none⟩, ⟨"/r/a.md", false, some ["# A"], none⟩]
        ++ (⟨"/r/locked", true, none, some "EIO"⟩ : WalkEntry)
          :: [⟨"/r/b.md", false, some ["# B"], none⟩])
      = ((ListMDFiles "/r" [⟨"/r", true, none, none⟩, ⟨"/r/a.md", false, some ["# A"], none⟩]).1,
          some "EIO") :=
  ⟨rfl, by decide,
    C2_walk_error_aborts "/r" _ _ _ "EIO" rfl (by decide)⟩

/-! ## Claim C8 -/
/-- C8: every node of level at least 2 contributes one list-item line,
indented with `level - 2` copies of the indent unit, `- title` for a
directory and `- [title](linkTarget)` for a document, followed by its
children's output; an empty document title gives `[](target)` since the title
sits textually between the brackets. -/
theorem C8_list_item_format (md : MDFileInfo) (indent : String) (b : Bool)
    (h : 2 ≤ md.level) :
    CreateTocTree md indent b =
      (stringsRepeat indent (md.level - 2) ++
        (if md.isDir then "- " ++ md.title ++ "\n"
         else "- [" ++ md.title ++ "](" ++ md.path ++ ")\n")) ++
      joinList ((if b then sortStringsAsc md.children.keys
                 else sortStringsDesc md.children.keys).map
        (findRendered (renderedChildren md.children indent b))) := by
  obtain ⟨isDir, cs, title, level, path⟩ := md
  rw [CreateTocTree_unfold]
  simp only [MDFileInfo.level, MDFileInfo.isDir, MDFileInfo.title, MDFileInfo.path,
    MDFileInfo.children] at h ⊢
  have h0 : ¬ level = 0 := by omega
  have h1 : ¬ level = 1 := by omega
  rw [tocLine]
  simp only [MDFileInfo.level, MDFileInfo.isDir, MDFileInfo.title, MDFileInfo.path, h0, h1,
    if_false]
  cases isDir <;> simp [String.append_assoc]

/-- Concrete use of C8: a level-2 document with an empty title renders as
`- [](./x.md)`. -/
theorem C8_list_item_format_witness :
    2 ≤ (MDFileInfo.mk false .nil "" 2 "./x.md").level ∧
    CreateTocTree (MDFileInfo.mk false .nil "" 2 "./x.md") "  " true =
      (stringsRepeat "  " ((MDFileInfo.mk false .nil "" 2 "./x.md").level - 2) ++
        (if (MDFileInfo.mk false .nil "" 2 "./x.md").isDir then
            "- " ++ (MDFileInfo.mk false .nil "" 2 "./x.md").title ++ "\n"
         else "- [" ++ (MDFileInfo.mk false .nil "" 2 "./x.md").title ++ "](" ++
            (MDFileInfo.mk false .nil "" 2 "./x.md").path ++ ")\n")) ++
      joinList ((if true then sortStringsAsc (MDFileInfo.mk false .nil "" 2 "./x.md").children.keys
                 else sortStringsDesc (MDFileInfo.mk false .nil "" 2 "./x.md").children.keys).map
        (findRendered (renderedChildren (MDFileInfo.mk false .nil "" 2 "./x.md").children "  " true))) :=
  ⟨by decide, C8_list_item_format (MDFileInfo.mk false .nil "" 2 "./x.md") "  " true (by decide)⟩

/-- On a newline-free line (which is what the scanner delivers), the compiled
regex matches exactly the spec-side heading test and captures the spec-side
text. -/
theorem h1Capture_of_no_newline (l : String) (h : '\n' ∉ l.toList) :
    h1Capture l.toList = (if specH1 l = true then some (specCapture l).toList else none) := by
  simp only [String.toList] at h ⊢
  cases hl : l.data with
  | nil => simp [h1Capture, specH1, hl]
  | cons c0 tl =>
    cases tl with
    | nil => simp [h1Capture, specH1, hl]
    | cons c rest =>
      rw [hl] at h
      have hnl : ('\n' ∈ (c :: rest).dropWhile isGoSpace) = False := by
        simp only [eq_iff_iff, iff_false]
        intro hm
        exact h (List.mem_cons_of_mem _ ((List.dropWhile_sublist _).subset hm))
      by_cases h0 : c0 = '#' ∧ isGoSpace c = true
      · obtain ⟨h0a, h0b⟩ := h0
        subst h0a
        have hnl2 : ('\n' ∈ rest.dropWhile isGoSpace) = False := by
          simpa [List.dropWhile_cons, h0b] using hnl
        simp [h1Capture, specH1, specCapture, hl, h0b, hnl, hnl2, List.dropWhile_cons]
      · have hs : ((c0 == '#') && isGoSpace c) = false := by
          cases hc0 : (c0 == '#') with
          | false => rfl
          | true =>
            cases hsp : isGoSpace c with
            | false => rfl
            | true => exact absurd ⟨by simpa using hc0, hsp⟩ h0
        simp [h1Capture, specH1, hl, h0, hs]

/-- C4: GetMDTitle returns the captured text of the first line starting with
exactly one hash followed by whitespace; a line starting with two hashes never
matches; the two-line example yields "Actual Title"; no matching line, or an
unopenable file, yields the empty string. -/
theorem C4_first_h1_title (lines : List String) (s : String)
    (hnl : ∀ l ∈ lines, '\n' ∉ l.toList) (hs : s.toList.take 2 = ['#', '#']) :
    (GetMDTitle (some lines) =
      match lines.find? specH1 with
      | some l => specCapture l
      | none => "") ∧
    specH1 s = false ∧
    GetMDTitle (some ["## Not H1", "# Actual Title"]) = "Actual Title" ∧
    GetMDTitle none = "" := by
  refine ⟨?_, ?_, by decide, rfl⟩
  · show scanH1 lines = _
    induction lines with
    | nil => rfl
    | cons l ls ih =>
      have hl := h1Capture_of_no_newline l (hnl l (List.mem_cons_self _ _))
      rw [scanH1, hl]
      cases hspec : specH1 l with
      | true =>
        rw [List.find?_cons_of_pos _ hspec]
        simp [string_mk_data]
      | false =>
        rw [List.find?_cons_of_neg _ (by simp [hspec])]
        simpa using ih (fun y hy => hnl y (List.mem_cons_of_mem _ hy))
  · cases hl : s.toList with
    | nil => rw [hl] at hs; simp at hs
    | cons c0 tl =>
      cases tl with
      | nil => rw [hl] at hs; simp at hs
      | cons c rest =>
        rw [hl] at hs
        simp only [List.take_succ_cons, List.take_zero, List.cons.injEq, and_true] at hs
        obtain ⟨h1, h2⟩ := hs
        subst h1
        subst h2
        simp only [specH1, hl]
        decide

/-- Concrete use of C4 on the two-line example. -/
theorem C4_first_h1_title_witness :
    (∀ l ∈ (["## Not H1", "# Actual Title"] : List String), '\n' ∉ l.toList) ∧
    ("## Not H1" : String).toList.take 2 = ['#', '#'] ∧
    ((GetMDTitle (some ["## Not H1", "# Actual Title"]) =
      match (["## Not H1", "# Actual Title"] : List String).find? specH1 with
      | some l => specCapture l
      | none => "") ∧
    specH1 "## Not H1" = false ∧
    GetMDTitle (some ["## Not H1", "# Actual Title"]) = "Actual Title" ∧
    GetMDTitle none = "") :=
  ⟨by decide, by decide,
    C4_first_h1_title ["## Not H1", "# Actual Title"] "## Not H1" (by decide) (by decide)⟩

/-! ## Claim C10 -/
/-- C10: if every earlier line fails the heading pattern and the first
matching line is one hash followed only by whitespace, GetMDTitle returns the
empty string and never reaches any later line, so a later real heading is
ignored: an empty first heading is indistinguishable from no heading. -/
theorem C10_empty_first_heading (pre post : List String) (l : String) (c : Char)
    (rest : List Char)
    (hpre : ∀ x ∈ pre, h1Capture x.toList = none)
    (hl : l.toList = '#' :: c :: rest)
    (hws : (c :: rest).all isGoSpace = true) :
    GetMDTitle (some (pre ++ l :: post)) = "" := by
  have hc : isGoSpace c = true := List.all_eq_true.mp hws c (List.mem_cons_self _ _)
  have hdrop : (c :: rest).dropWhile isGoSpace = [] :=
    List.dropWhile_eq_nil_iff.mpr (fun x hx => List.all_eq_true.mp hws x hx)
  have hdrop2 : rest.dropWhile isGoSpace = [] := by
    simpa [List.dropWhile_cons, hc] using hdrop
  have hcap : h1Capture l.toList = some [] := by
    rw [hl]
    simp [h1Capture, hc, hdrop, hdrop2, List.dropWhile_cons]
  show scanH1 (pre ++ l :: post) = ""
  induction pre with
  | nil =>
    rw [List.nil_append, scanH1, hcap]
  | cons x xs ih =>
    rw [List.cons_append, scanH1, hpre x (List.mem_cons_self _ _)]
    exact ih (fun y hy => hpre y (List.mem_cons_of_mem _ hy))

/-- Concrete use of C10: the line `# ` hides a later real title. -/
theorem C10_empty_first_heading_witness :
    (∀ x ∈ (["plain text"] : List String), h1Capture x.toList = none) ∧
    ("# " : String).toList = '#' :: ' ' :: [] ∧
    (' ' :: ([] : List Char)).all isGoSpace = true ∧
    GetMDTitle (some (["plain text"] ++ "# " :: ["# Real Title"])) = "" :=
  ⟨by decide, by decide, by decide,
    C10_empty_first_heading ["plain text"] ["# Real Title"] "# " ' ' []
      (by decide) (by decide) (by decide)⟩

/-! ## Claim C9 -/
/-- An error-free walk never surfaces an error. -/
theorem walkFold_no_error (dirPath : String) :
    ∀ (evs : List WalkEntry) (t : MDFileInfo), (∀ x ∈ evs, x.err = none) →
      (walkFold dirPath t evs).2 = none
  | [], _, _ => rfl
  | e :: es, t, hall => by
    rw [walkFold, hall e (List.mem_cons_self _ _)]
    exact walkFold_no_error dirPath es _ (fun y hy => hall y (List.mem_cons_of_mem _ hy))

/-- C9: a document that cannot be opened is a soft failure: its title becomes
the empty string rather than an error, the callback still inserts the
document (with that empty title) at its position, and the walk carries on
over the remaining entries, ending without an error. -/
theorem C9_soft_title_failure (dirPath : String) (pre post : List WalkEntry)
    (e : WalkEntry) (acc : MDFileInfo)
    (hok : ∀ x ∈ pre ++ e :: post, x.err = none) (hc : e.content = none) :
    (ListMDFiles dirPath (pre ++ e :: post)).2 = none ∧
    GetMDTitle e.content = "" ∧
    processEntry dirPath acc e =
      insertWalk acc (splitOnSlash (filepathDir (replaceFirst e.path dirPath ".")))
        (filepathBase e.path) "" (urlPathEscape (replaceFirst e.path dirPath ".")) := by
  refine ⟨walkFold_no_error dirPath _ _ hok, by rw [hc]; rfl, ?_⟩
  rw [processEntry, hc]
  rfl

/-- Concrete use of C9: one unreadable document among readable ones. -/
theorem C9_soft_title_failure_witness :
    (∀ x ∈ ([⟨"/r", true, none, none⟩, ⟨"/r/a.md", false, none, none⟩,
             ⟨"/r/b.md", false, some ["# B"], none⟩] : List WalkEntry), x.err = none) ∧
    (⟨"/r/a.md", false, none, none⟩ : WalkEntry).content = none ∧
    ((ListMDFiles "/r" ([⟨"/r", true, none, none⟩] ++
        (⟨"/r/a.md", false, none, none⟩ : WalkEntry) ::
          [⟨"/r/b.md", false, some ["# B"], none⟩])).2 = none ∧
     GetMDTitle (⟨"/r/a.md", false, none, none⟩ : WalkEntry).content = "" ∧
     processEntry "/r" rootInfo ⟨"/r/a.md", false, none, none⟩ =
       insertWalk rootInfo
         (splitOnSlash (filepathDir (replaceFirst "/r/a.md" "/r" ".")))
         (filepathBase "/r/a.md") "" (urlPathEscape (replaceFirst "/r/a.md" "/r" "."))) :=
  ⟨by decide, rfl,
    C9_soft_title_failure "/r" [⟨"/r", true, none, none⟩]
      [⟨"/r/b.md", false, some ["# B"], none⟩] ⟨"/r/a.md", false, none, none⟩ rootInfo
      (by decide) rfl⟩

/-! ## Claim C7 -/
/-- Inserting a file never changes the fields of the node itself, only its
children. -/
theorem insertWalk_fields : ∀ (p : MDFileInfo) (dirs : List String) (nm ti pa : String),
    (insertWalk p dirs nm ti pa).isDir = p.isDir ∧
    (insertWalk p dirs nm ti pa).level = p.level ∧
    (insertWalk p dirs nm ti pa).title = p.title ∧
    (insertWalk p dirs nm ti pa).path = p.path
  | p, [], nm, ti, pa => by
    rw [insertWalk]
    exact ⟨rfl, rfl, rfl, rfl⟩
  | p, d :: ds, nm, ti, pa => by
    rw [insertWalk]
    by_cases hd : d = "."
    · rw [if_pos hd]
      exact insertWalk_fields p ds nm ti pa
    · rw [if_neg hd]
      cases p.children.find? d with
      | some c => exact ⟨rfl, rfl, rfl, rfl⟩
      | none => exact ⟨rfl, rfl, rfl, rfl⟩

/-- A binding looked up in a children map satisfying the level invariant for
level `l` has level `l + 1` and satisfies the invariant below itself. -/
theorem levelsOKC_find : ∀ {l : Nat} (cs : MDChildren) {k : String} {c : MDFileInfo},
    levelsOKC l cs = true → cs.find? k = some c →
    c.level = l + 1 ∧ levelsOKFrom c = true
  | _, .nil, _, _, _, hf => by simp [MDChildren.find?] at hf
  | l, .cons k0 v r, k, c, h, hf => by
    rw [MDChildren.find?] at hf
    rw [levelsOKC] at h
    simp only [Bool.and_eq_true, beq_iff_eq] at h
    by_cases hk : k0 = k
    · rw [if_pos hk] at hf
      cases hf
      exact ⟨h.1.1, h.1.2⟩
    · rw [if_neg hk] at hf
      exact levelsOKC_find r h.2 hf

/-- Updating a binding with a node of the right level and a valid subtree
preserves the level invariant of the map. -/
theorem levelsOKC_set : ∀ {l : Nat} (cs : MDChildren) (k : String) {v : MDFileInfo},
    levelsOKC l cs = true → v.level = l + 1 → levelsOKFrom v = true →
    levelsOKC l (cs.set k v) = true
  | l, .nil, k, v, _, hv, hvOK => by
    rw [MDChildren.set, levelsOKC, levelsOKC]
    simp [hv, hvOK]
  | l, .cons k0 w r, k, v, h, hv, hvOK => by
    rw [levelsOKC] at h
    simp only [Bool.and_eq_true, beq_iff_eq] at h
    rw [MDChildren.set]
    by_cases hk : k0 = k
    · rw [if_pos hk, levelsOKC]
      simp [hv, hvOK, h.2]
    · rw [if_neg hk, levelsOKC]
      simp [h.1.1, h.1.2, levelsOKC_set r k h.2 hv hvOK]

/-- Inserting a walked file preserves the level invariant. -/
theorem insertWalk_levelsOK : ∀ (p : MDFileInfo) (dirs : List String) (nm ti pa : String),
    levelsOKFrom p = true → levelsOKFrom (insertWalk p dirs nm ti pa) = true
  | .mk b cs t l pth, [], nm, ti, pa, h => by
    rw [insertWalk]
    rw [levelsOKFrom] at h ⊢
    simp only [MDFileInfo.children, MDFileInfo.level, MDFileInfo.isDir, MDFileInfo.title,
      MDFileInfo.path] at h ⊢
    exact levelsOKC_set cs nm h rfl rfl
  | .mk b cs t l pth, d :: ds, nm, ti, pa, h => by
    rw [insertWalk]
    by_cases hd : d = "."
    · rw [if_pos hd]
      exact insertWalk_levelsOK _ ds nm ti pa h
    · rw [if_neg hd]
      rw [levelsOKFrom] at h
      simp only [MDFileInfo.children, MDFileInfo.level] at h ⊢
      cases hf : cs.find? d with
      | some c =>
        have hc := levelsOKC_find cs h hf
        have hrec := insertWalk_levelsOK c ds nm ti pa hc.2
        have hlev := (insertWalk_fields c ds nm ti pa).2.1
        simp only [levelsOKFrom, MDFileInfo.children, MDFileInfo.level, MDFileInfo.isDir,
          MDFileInfo.title, MDFileInfo.path]
        exact levelsOKC_set cs d h (by rw [hlev]; exact hc.1) hrec
      | none =>
        have hndOK : levelsOKFrom (MDFileInfo.mk true .nil d (l + 1)
            (urlPathEscape (filepathJoin pth d))) = true := rfl
        have hrec := insertWalk_levelsOK _ ds nm ti pa hndOK
        have hlev := (insertWalk_fields (MDFileInfo.mk true .nil d (l + 1)
            (urlPathEscape (filepathJoin pth d))) ds nm ti pa).2.1
        simp only [levelsOKFrom, MDFileInfo.children, MDFileInfo.level, MDFileInfo.isDir,
          MDFileInfo.title, MDFileInfo.path]
        exact levelsOKC_set cs d h (by rw [hlev]; rfl) hrec

/-- C7: every tree ListMDFiles builds (including the partial tree returned
beside an error) has a root of level 0 which is a directory, and every child
is exactly one level below its parent, recursively. -/
theorem C7_level_invariant (dirPath : String) (events : List WalkEntry) :
    (ListMDFiles dirPath events).1.level = 0 ∧
    (ListMDFiles dirPath events).1.isDir = true ∧
    levelsOKFrom (ListMDFiles dirPath events).1 = true := by
  have main : ∀ (evs : List WalkEntry) (t : MDFileInfo),
      t.level = 0 → t.isDir = true → levelsOKFrom t = true →
      (walkFold dirPath t evs).1.level = 0 ∧ (walkFold dirPath t evs).1.isDir = true ∧
        levelsOKFrom (walkFold dirPath t evs).1 = true := by
    intro evs
    induction evs with
    | nil => exact fun t h1 h2 h3 => ⟨h1, h2, h3⟩
    | cons e es ih =>
      intro t h1 h2 h3
      rw [walkFold]
      cases he : e.err with
      | some m => exact ⟨h1, h2, h3⟩
      | none =>
        by_cases hel : eligibleB e = true
        · rw [if_pos hel]
          have hf := insertWalk_fields t (splitOnSlash (filepathDir (replaceFirst e.path dirPath ".")))
            (filepathBase e.path) (GetMDTitle e.content) (urlPathEscape (replaceFirst e.path dirPath "."))
          exact ih (processEntry dirPath t e) (by rw [processEntry, hf.2.1]; exact h1)
            (by rw [processEntry, hf.1]; exact h2)
            (insertWalk_levelsOK t _ _ _ _ h3)
        · rw [if_neg hel]
          exact ih t h1 h2 h3
  exact main events rootInfo rfl rfl rfl

/-! ## Order facts about the string comparison -/
theorem ltChars_asymm : ∀ {a b : List Char}, ltChars a b = true → ltChars b a = false
  | [], [], h => by simp [ltChars] at h
  | [], _ :: _, _ => rfl
  | _ :: _, [], h => by simp [ltChars] at h
  | a :: as, b :: bs, h => by
    rw [ltChars] at h ⊢
    by_cases h1 : a < b
    · rw [if_neg (lt_asymm h1), if_pos h1]
    · rw [if_neg h1] at h
      by_cases h2 : b < a
      · rw [if_pos h2] at h
        cases h
      · rw [if_neg h2] at h
        rw [if_neg h2, if_neg h1]
        exact ltChars_asymm h

theorem ltChars_eq_of_both_false : ∀ {a b : List Char},
    ltChars a b = false → ltChars b a = false → a = b
  | [], [], _, _ => rfl
  | [], _ :: _, h, _ => by simp [ltChars] at h
  | _ :: _, [], _, h2 => by simp [ltChars] at h2
  | a :: as, b :: bs, h, h2 => by
    rw [ltChars] at h h2
    by_cases h1 : a < b
    · rw [if_pos h1] at h
      cases h
    · by_cases h3 : b < a
      · rw [if_pos h3] at h2
        cases h2
      · have hab : a = b := le_antisymm (not_lt.mp h3) (not_lt.mp h1)
        subst hab
        rw [if_neg h1, if_neg h1] at h h2
        rw [ltChars_eq_of_both_false h h2]

theorem ltChars_trans : ∀ {a b c : List Char},
    ltChars a b = true → ltChars b c = true → ltChars a c = true
  | [], _, _ :: _, _, _ => rfl
  | [], b, [], _, h2 => by cases b <;> simp [ltChars] at h2
  | _ :: _, [], _, h1, _ => by simp [ltChars] at h1
  | _ :: _, _ :: _, [], _, h2 => by simp [ltChars] at h2
  | a :: as, b :: bs, c :: cs, h1, h2 => by
    rw [ltChars] at h1 h2 ⊢
    by_cases hab : a < b
    · by_cases hbc : b < c
      · rw [if_pos (lt_trans hab hbc)]
      · by_cases hcb : c < b
        · rw [if_neg hbc, if_pos hcb] at h2
          cases h2
        · have : b = c := le_antisymm (not_lt.mp hcb) (not_lt.mp hbc)
          subst this
          rw [if_pos hab]
    · by_cases hba : b < a
      · rw [if_neg hab, if_pos hba] at h1
        cases h1
      · have : a = b := le_antisymm (not_lt.mp hba) (not_lt.mp hab)
        subst this
        rw [if_neg hab] at h1
        rw [if_neg hba] at h1
        by_cases hbc : a < c
        · rw [if_pos hbc]
        · by_cases hcb : c < a
          · rw [if_neg hbc, if_pos hcb] at h2
            cases h2
          · rw [if_neg hbc, if_neg hcb] at h2 ⊢
            exact ltChars_trans h1 h2

/-- Two strings with the same character data are the same string. -/
theorem string_ext {a b : String} (h : a.data = b.data) : a = b := by
  cases a
  cases b
  exact congrArg String.mk h

theorem strLeP_total (a b : String) : StrLeP a b ∨ StrLeP b a := by
  cases hb : ltChars b.toList a.toList with
  | false =>
    left
    show (!ltChars b.toList a.toList) = true
    rw [hb]
    rfl
  | true =>
    right
    show (!ltChars a.toList b.toList) = true
    rw [ltChars_asymm hb]
    rfl

theorem strLeP_trans {a b c : String} (h1 : StrLeP a b) (h2 : StrLeP b c) : StrLeP a c := by
  unfold StrLeP strLe at h1 h2 ⊢
  simp only [Bool.not_eq_true'] at h1 h2 ⊢
  by_contra hx
  simp only [Bool.not_eq_false] at hx
  by_cases hba : ltChars a.toList b.toList = true
  · have hcb := ltChars_trans hx hba
    rw [h2] at hcb
    cases hcb
  · have hne : ltChars a.toList b.toList = false := by
      cases hh : ltChars a.toList b.toList
      · rfl
      · exact absurd hh hba
    have heq : a.toList = b.toList := ltChars_eq_of_both_false hne h1
    rw [heq, h2] at hx
    cases hx

theorem strLeP_antisymm {a b : String} (h1 : StrLeP a b) (h2 : StrLeP b a) : a = b := by
  unfold StrLeP strLe at h1 h2
  simp only [Bool.not_eq_true'] at h1 h2
  exact string_ext (ltChars_eq_of_both_false h2 h1)

instance : IsTotal String StrLeP := ⟨strLeP_total⟩

instance : IsTrans String StrLeP := ⟨fun _ _ _ => strLeP_trans⟩

instance : IsAntisymm String StrLeP := ⟨fun _ _ => strLeP_antisymm⟩

instance : IsTotal String StrGeP := ⟨fun a b => Or.symm (strLeP_total a b)⟩

instance : IsTrans String StrGeP := ⟨fun _ _ _ hab hbc => strLeP_trans hbc hab⟩

instance : IsAntisymm String StrGeP := ⟨fun _ _ hab hba => strLeP_antisymm hba hab⟩

/-- The descending sort is the reverse of the ascending sort. -/
theorem sortStringsDesc_eq_reverse (l : List String) :
    sortStringsDesc l = (sortStringsAsc l).reverse := by
  refine List.eq_of_perm_of_sorted (r := StrGeP) ?_ ?_ ?_
  · exact (List.perm_insertionSort _ l).trans
      ((List.perm_insertionSort StrLeP l).symm.trans (List.reverse_perm _).symm)
  · exact List.sorted_insertionSort _ l
  · exact List.pairwise_reverse.mpr (List.sorted_insertionSort StrLeP l)

/-- C3 counterexample: on a collision-free tree of depth three, reversing
only the top-level and second-level groupings of the ascending rendering
leaves the two level-3 documents in ascending order, while the descending
rendering reverses them too, so the two strings differ. -/
theorem C3_top_two_reversal_counterexample :
    noCollisionsB ceTree = true ∧
    reverseTop2 ceTree "  " ≠ CreateTocTree ceTree "  " false := by
  refine ⟨by decide, by decide⟩

mutual

/-- Descending rendering is the ascending rendering with the groupings
reversed at every level. -/
theorem createToc_desc_rev : ∀ (md : MDFileInfo) (indent : String),
    CreateTocTree md indent false = reverseGroupingsAll md indent
  | .mk isDir cs title level path, indent => by
    rw [CreateTocTree_unfold, reverseGroupingsAll]
    rw [revChildren_eq cs indent]
    simp only [Bool.false_eq_true, if_false, sortStringsDesc_eq_reverse]

/-- The rendered children agree with their reversed-grouping transforms. -/
theorem revChildren_eq : ∀ (cs : MDChildren) (indent : String),
    renderedChildren cs indent false = revChildren cs indent
  | .nil, _ => rfl
  | .cons k v r, indent => by
    rw [renderedChildren, revChildren, createToc_desc_rev v indent, revChildren_eq r indent]

end

/-- C3 amended: for every tree without name collisions (and in fact for every
tree), the descending rendering equals the ascending rendering with the
sibling groupings reversed at every level, not just the top two. -/
theorem C3_reverse_all_levels (md : MDFileInfo) (indent : String)
    (h : noCollisionsB md = true) :
    CreateTocTree md indent false = reverseGroupingsAll md indent :=
  createToc_desc_rev md indent

/-- Concrete use of the amended C3 statement. -/
theorem C3_reverse_all_levels_witness :
    noCollisionsB ceTree = true ∧
    CreateTocTree ceTree "  " false = reverseGroupingsAll ceTree "  " :=
  ⟨by decide, C3_reverse_all_levels ceTree "  " (by decide)⟩

/-- On an association list with distinct keys, looking up a key of a member
pair gives the paired value. -/
theorem findRendered_of_mem : ∀ {L : List (String × String)} {k v}, (k, v) ∈ L →
    distinctStr (L.map Prod.fst) = true → findRendered L k = v
  | [], k, v, h, _ => by cases h
  | (k0, v0) :: r, k, v, h, hnd => by
    rw [List.map] at hnd
    rw [distinctStr] at hnd
    simp only [Bool.and_eq_true, Bool.not_eq_true'] at hnd
    rw [findRendered]
    cases h with
    | head => rw [if_pos rfl]
    | tail _ hmem =>
      by_cases hk : k0 = k
      · exfalso
        have hkm : k ∈ r.map Prod.fst := List.mem_map_of_mem Prod.fst hmem
        rw [hk] at hnd
        have : (r.map Prod.fst).contains k = true := by
          simpa using hkm
        rw [this] at hnd
        cases hnd.1
      · rw [if_neg hk]
        exact findRendered_of_mem hmem hnd.2

/-- Keys of the children map are the keys of the spec-side blocks. -/
theorem keys_eq_map_fst_pairs : ∀ (cs : MDChildren) (indent : String) (asc : Bool),
    MDChildren.keys cs = (specRenderPairs cs indent asc).map Prod.fst
  | .nil, _, _ => rfl
  | .cons k v r, indent, asc => by
    rw [MDChildren.keys, specRenderPairs, List.map, keys_eq_map_fst_pairs r indent asc]

/-- With distinct keys, mapping lookup over the ascending-sorted keys equals
the values of the pairs sorted ascending by key. -/
theorem sorted_keys_lookup {L : List (String × String)}
    (hnd : distinctStr (L.map Prod.fst) = true) :
    ((L.map Prod.fst).insertionSort StrLeP).map (findRendered L) =
      (L.insertionSort pairLeS).map Prod.snd := by
  have hcomm : (L.insertionSort pairLeS).map Prod.fst =
      (L.map Prod.fst).insertionSort StrLeP :=
    List.map_insertionSort pairLeS StrLeP Prod.fst L (fun _ _ _ _ => Iff.rfl)
  rw [← hcomm, List.map_map]
  refine List.map_congr_left (fun p hp => ?_)
  have hmem : p ∈ L := (List.perm_insertionSort pairLeS L).subset hp
  obtain ⟨k, v⟩ := p
  exact findRendered_of_mem hmem hnd

/-- With distinct keys, mapping lookup over the descending-sorted keys equals
the values of the pairs sorted descending by key. -/
theorem sorted_keys_lookup_desc {L : List (String × String)}
    (hnd : distinctStr (L.map Prod.fst) = true) :
    ((L.map Prod.fst).insertionSort StrGeP).map (findRendered L) =
      (L.insertionSort pairGeS).map Prod.snd := by
  have hcomm : (L.insertionSort pairGeS).map Prod.fst =
      (L.map Prod.fst).insertionSort StrGeP :=
    List.map_insertionSort pairGeS StrGeP Prod.fst L (fun _ _ _ _ => Iff.rfl)
  rw [← hcomm, List.map_map]
  refine List.map_congr_left (fun p hp => ?_)
  have hmem : p ∈ L := (List.perm_insertionSort pairGeS L).subset hp
  obtain ⟨k, v⟩ := p
  exact findRendered_of_mem hmem hnd

mutual

/-- On collision-free trees, CreateTocTree renders exactly the spec-side
sorted-children contract. -/
theorem createToc_spec_eq : ∀ (md : MDFileInfo) (indent : String) (asc : Bool),
    noCollisionsB md = true → CreateTocTree md indent asc = specRender md indent asc
  | .mk isDir cs title level path, indent, asc, h => by
    rw [CreateTocTree_unfold, specRender]
    rw [noCollisionsB] at h
    simp only [MDFileInfo.children, Bool.and_eq_true] at h
    have hpairs : renderedChildren cs indent asc = specRenderPairs cs indent asc :=
      renderedChildren_spec cs indent asc h.2
    have hnd : distinctStr ((specRenderPairs cs indent asc).map Prod.fst) = true := by
      rw [← keys_eq_map_fst_pairs cs indent asc]
      exact h.1
    cases asc with
    | true =>
      rw [hpairs, if_pos rfl, if_pos rfl, keys_eq_map_fst_pairs cs indent true,
        sortStringsAsc, sorted_keys_lookup hnd]
    | false =>
      rw [hpairs, if_neg (by simp), if_neg (by simp), keys_eq_map_fst_pairs cs indent false,
        sortStringsDesc, sorted_keys_lookup_desc hnd]

/-- Children of collision-free trees render to their spec-side blocks. -/
theorem renderedChildren_spec : ∀ (cs : MDChildren) (indent : String) (asc : Bool),
    noCollisionsC cs = true → renderedChildren cs indent asc = specRenderPairs cs indent asc
  | .nil, _, _, _ => rfl
  | .cons k v r, indent, asc, h => by
    rw [noCollisionsC] at h
    simp only [Bool.and_eq_true] at h
    rw [renderedChildren, specRenderPairs, createToc_spec_eq v indent asc h.1,
      renderedChildren_spec r indent asc h.2]

end

/-- C5: children are rendered in ascending raw-key order when the flag is
true and descending raw-key order when it is false (stated against the
spec-side sorted-children contract), and on the sibling scenario `a.md`
renders before `b.md` ascending, after it descending - sorted by key, not by
the titles. -/
theorem C5_sorted_sibling_order (md : MDFileInfo) (indent : String) (asc : Bool)
    (h : noCollisionsB md = true) :
    CreateTocTree md indent asc = specRender md indent asc ∧
    CreateTocTree abTree "  " true = "# T\n\n## docs\n\n- [Alpha](pa)\n- [Beta](pb)\n" ∧
    CreateTocTree abTree "  " false = "# T\n\n## docs\n\n- [Beta](pb)\n- [Alpha](pa)\n" :=
  ⟨createToc_spec_eq md indent asc h, by decide, by decide⟩

/-- Concrete use of C5 on the sibling scenario. -/
theorem C5_sorted_sibling_order_witness :
    noCollisionsB abTree = true ∧
    (CreateTocTree abTree "  " true = specRender abTree "  " true ∧
     CreateTocTree abTree "  " true = "# T\n\n## docs\n\n- [Alpha](pa)\n- [Beta](pb)\n" ∧
     CreateTocTree abTree "  " false = "# T\n\n## docs\n\n- [Beta](pb)\n- [Alpha](pa)\n") :=
  ⟨by decide, C5_sorted_sibling_order abTree "  " true (by decide)⟩

/-! ## Claim C6 -/
/-- Lookup after a map update. -/
theorem find?_set : ∀ (cs : MDChildren) (a k : String) (v : MDFileInfo),
    (cs.set a v).find? k = if a = k then some v else cs.find? k
  | .nil, a, k, v => by
    simp [MDChildren.set, MDChildren.find?]
  | .cons k0 w r, a, k, v => by
    rw [MDChildren.set]
    by_cases ha : k0 = a
    · rw [if_pos ha]
      rw [MDChildren.find?, MDChildren.find?]
      by_cases hk : a = k
      · rw [if_pos hk, if_pos hk]
      · have hk0 : ¬ k0 = k := fun hh => hk (ha.symm.trans hh)
        rw [if_neg hk, if_neg hk, if_neg hk0]
    · rw [if_neg ha]
      rw [MDChildren.find?, MDChildren.find?]
      by_cases hk : k0 = k
      · have hak : ¬ a = k := fun hak => ha (hk.trans hak.symm)
        rw [if_pos hk, if_pos hk, if_neg hak]
      · rw [if_neg hk, if_neg hk, find?_set r a k v]

/-- Updating an absent key adds the new node's documents. -/
theorem countDocsC_set_none : ∀ (cs : MDChildren) (k : String) (v : MDFileInfo),
    cs.find? k = none → countDocsC (cs.set k v) = countDocsC cs + countDocs v
  | .nil, k, v, _ => by
    rw [MDChildren.set, countDocsC, countDocsC, countDocsC]
    omega
  | .cons k0 w r, k, v, hf => by
    rw [MDChildren.find?] at hf
    by_cases hk : k0 = k
    · rw [if_pos hk] at hf
      cases hf
    · rw [if_neg hk] at hf
      rw [MDChildren.set, if_neg hk, countDocsC, countDocsC, countDocsC_set_none r k v hf]
      omega

/-- Updating a present key exchanges the old node's documents for the new
node's. -/
theorem countDocsC_set_some : ∀ (cs : MDChildren) (k : String) (v c : MDFileInfo),
    cs.find? k = some c →
    countDocsC (cs.set k v) + countDocs c = countDocsC cs + countDocs v
  | .nil, k, v, c, hf => by
    rw [MDChildren.find?] at hf
    cases hf
  | .cons k0 w r, k, v, c, hf => by
    rw [MDChildren.find?] at hf
    by_cases hk : k0 = k
    · rw [if_pos hk] at hf
      cases hf
      rw [MDChildren.set, if_pos hk, countDocsC, countDocsC]
      omega
    · rw [if_neg hk] at hf
      rw [MDChildren.set, if_neg hk, countDocsC, countDocsC]
      have := countDocsC_set_some r k v c hf
      omega

/-- Nothing sits at a nonempty position below a childless node. -/
theorem existsAt_nil_children : ∀ (b : Bool) (t : String) (l : Nat) (p : String)
    (q : List String) (nm : String),
    existsAt (.mk b .nil t l p) (q ++ [nm]) = false
  | _, _, _, _, [], _ => rfl
  | _, _, _, _, _ :: _, _ => rfl

theorem isLeadOf_nil (q : List String) : isLeadOf [] q = true := by
  simp [isLeadOf]

theorem isLeadOf_cons (a : String) (p q : List String) :
    isLeadOf (a :: p) (a :: q) = isLeadOf p q := by
  unfold isLeadOf
  rw [List.length_cons, List.take_succ_cons]
  rw [decide_eq_decide]
  simp

/-- Inserting a file at a fresh position adds exactly one document. -/
theorem insertWalk_count : ∀ (p : MDFileInfo) (dirs : List String) (nm ti pa : String),
    existsAt p (dirs.filter (fun d => !(d == ".")) ++ [nm]) = false →
    countDocs (insertWalk p dirs nm ti pa) = countDocs p + 1
  | .mk b cs t l pth, [], nm, ti, pa, h => by
    rw [List.filter_nil, List.nil_append, existsAt] at h
    simp only [MDFileInfo.children] at h
    cases hf : cs.find? nm with
    | some c => simp [hf, existsAt] at h
    | none =>
      rw [insertWalk, countDocs, countDocs]
      simp only [MDFileInfo.children, MDFileInfo.level, MDFileInfo.isDir, MDFileInfo.title,
        MDFileInfo.path]
      rw [countDocsC_set_none cs nm _ hf]
      have hdoc : countDocs (.mk false .nil ti (l + 1) pa) = 1 := rfl
      omega
  | .mk b cs t l pth, d :: ds, nm, ti, pa, h => by
    rw [insertWalk]
    by_cases hd : d = "."
    · rw [if_pos hd]
      apply insertWalk_count _ ds nm ti pa
      rw [@List.filter_cons_of_neg String (fun x => !(x == ".")) d ds (by simp [hd])] at h
      exact h
    · rw [if_neg hd]
      have hdt : (!(d == ".")) = true := by simp [hd]
      rw [@List.filter_cons_of_pos String (fun x => !(x == ".")) d ds hdt, List.cons_append,
        existsAt] at h
      simp only [MDFileInfo.children] at h
      simp only [MDFileInfo.children]
      cases hf : cs.find? d with
      | some c =>
        rw [hf] at h
        dsimp only [MDFileInfo.isDir, MDFileInfo.children, MDFileInfo.title, MDFileInfo.level,
          MDFileInfo.path] at h ⊢
        have hins := insertWalk_count c ds nm ti pa h
        have hset := countDocsC_set_some cs d (insertWalk c ds nm ti pa) c hf
        rw [countDocs, countDocs]
        omega
      | none =>
        dsimp only [MDFileInfo.isDir, MDFileInfo.children, MDFileInfo.title, MDFileInfo.level,
          MDFileInfo.path]
        have hfresh := existsAt_nil_children true d (l + 1)
          (urlPathEscape (filepathJoin pth d)) (ds.filter (fun d => !(d == "."))) nm
        have hins := insertWalk_count (.mk true .nil d (l + 1)
          (urlPathEscape (filepathJoin pth d))) ds nm ti pa hfresh
        have hset := countDocsC_set_none cs d
          (insertWalk (.mk true .nil d (l + 1) (urlPathEscape (filepathJoin pth d))) ds nm ti pa) hf
        have hnd : countDocs (.mk true .nil d (l + 1) (urlPathEscape (filepathJoin pth d))) = 0 := rfl
        rw [countDocs, countDocs]
        omega

/-- Any position present after an insert was present before or leads into
the inserted position. -/
theorem insertWalk_existsAt : ∀ (p : MDFileInfo) (dirs : List String) (nm ti pa : String)
    (q : List String),
    existsAt (insertWalk p dirs nm ti pa) q = true →
    existsAt p q = true ∨ isLeadOf q (dirs.filter (fun d => !(d == ".")) ++ [nm]) = true
  | _, _, _, _, _, [], _ => Or.inl rfl
  | .mk b cs t l pth, [], nm, ti, pa, k :: ks, h => by
    rw [insertWalk, existsAt] at h
    simp only [MDFileInfo.children] at h
    rw [find?_set] at h
    by_cases hk : nm = k
    · subst hk
      rw [if_pos rfl] at h
      cases ks with
      | nil =>
        right
        simp [isLeadOf]
      | cons k2 ks2 => simp [existsAt, MDChildren.find?] at h
    · rw [if_neg hk] at h
      left
      rw [existsAt]
      simp only [MDFileInfo.children]
      exact h
  | .mk b cs t l pth, d :: ds, nm, ti, pa, k :: ks, h => by
    rw [insertWalk] at h
    by_cases hd : d = "."
    · rw [if_pos hd] at h
      rcases insertWalk_existsAt _ ds nm ti pa (k :: ks) h with hl | hr
      · exact Or.inl hl
      · right
        rw [@List.filter_cons_of_neg String (fun x => !(x == ".")) d ds (by simp [hd])]
        exact hr
    · rw [if_neg hd] at h
      have hdt : (!(d == ".")) = true := by simp [hd]
      simp only [MDFileInfo.children] at h
      cases hf : cs.find? d with
      | some c =>
        rw [hf] at h
        dsimp only [MDFileInfo.isDir, MDFileInfo.children, MDFileInfo.title, MDFileInfo.level,
          MDFileInfo.path] at h
        rw [existsAt] at h
        simp only [MDFileInfo.children] at h
        rw [find?_set] at h
        by_cases hk : d = k
        · subst hk
          rw [if_pos rfl] at h
          rcases insertWalk_existsAt c ds nm ti pa ks h with hl | hr
          · left
            rw [existsAt]
            simp only [MDFileInfo.children]
            rw [hf]
            exact hl
          · right
            rw [@List.filter_cons_of_pos String (fun x => !(x == ".")) d ds hdt,
              List.cons_append, isLeadOf_cons]
            exact hr
        · rw [if_neg hk] at h
          left
          rw [existsAt]
          simp only [MDFileInfo.children]
          exact h
      | none =>
        rw [hf] at h
        dsimp only [MDFileInfo.isDir, MDFileInfo.children, MDFileInfo.title, MDFileInfo.level,
          MDFileInfo.path] at h
        rw [existsAt] at h
        simp only [MDFileInfo.children] at h
        rw [find?_set] at h
        by_cases hk : d = k
        · subst hk
          rw [if_pos rfl] at h
          rcases insertWalk_existsAt (.mk true .nil d (l + 1)
              (urlPathEscape (filepathJoin pth d))) ds nm ti pa ks h with hl | hr
          · cases ks with
            | nil =>
              right
              rw [@List.filter_cons_of_pos String (fun x => !(x == ".")) d ds hdt,
              List.cons_append, isLeadOf_cons]
              exact isLeadOf_nil _
            | cons k2 ks2 => simp [existsAt, MDChildren.find?] at hl
          · right
            rw [@List.filter_cons_of_pos String (fun x => !(x == ".")) d ds hdt,
              List.cons_append, isLeadOf_cons]
            exact hr
        · rw [if_neg hk] at h
          left
          rw [existsAt]
          simp only [MDFileInfo.children]
          exact h

/-- Fold invariant for the document count: over error-free events whose
eligible positions are fresh in the accumulator and pairwise non-nested, the
walk succeeds and each eligible file adds exactly one document. -/
theorem walkFold_count (dirPath : String) :
    ∀ (events : List WalkEntry) (acc : MDFileInfo),
    (∀ e ∈ events, e.err = none) →
    (∀ e ∈ events, eligibleB e = true → existsAt acc (entryPos dirPath e) = false) →
    conflictFreeB ((events.filter eligibleB).map (entryPos dirPath)) = true →
    (walkFold dirPath acc events).2 = none ∧
    countDocs (walkFold dirPath acc events).1 =
      countDocs acc + (events.filter eligibleB).length
  | [], acc, _, _, _ => ⟨rfl, by simp [walkFold]⟩
  | e :: es, acc, herr, hfresh, hcf => by
    rw [walkFold, herr e (List.mem_cons_self _ _)]
    by_cases hel : eligibleB e = true
    · rw [if_pos hel]
      rw [List.filter_cons_of_pos hel, List.map] at hcf
      rw [conflictFreeB] at hcf
      simp only [Bool.and_eq_true, List.all_eq_true] at hcf
      have hfr : existsAt acc (entryPos dirPath e) = false :=
        hfresh e (List.mem_cons_self _ _) hel
      have hcnt : countDocs (processEntry dirPath acc e) = countDocs acc + 1 := by
        rw [processEntry]
        exact insertWalk_count acc _ _ _ _ hfr
      have hnext : ∀ x ∈ es, eligibleB x = true →
          existsAt (processEntry dirPath acc e) (entryPos dirPath x) = false := by
        intro x hx hex
        cases hEx : existsAt (processEntry dirPath acc e) (entryPos dirPath x) with
        | false => rfl
        | true =>
          exfalso
          rw [processEntry] at hEx
          rcases insertWalk_existsAt acc _ _ _ _ _ hEx with hold | hlead
          · rw [hfresh x (List.mem_cons_of_mem _ hx) hex] at hold
            cases hold
          · have hq : entryPos dirPath x ∈
                (es.filter eligibleB).map (entryPos dirPath) :=
              List.mem_map_of_mem _ (List.mem_filter.mpr ⟨hx, hex⟩)
            have := hcf.1 _ hq
            simp only [Bool.and_eq_true, Bool.not_eq_true'] at this
            have hlead2 : isLeadOf (entryPos dirPath x) (entryPos dirPath e) = true := hlead
            rw [this.2] at hlead2
            cases hlead2
      have ih := walkFold_count dirPath es (processEntry dirPath acc e)
        (fun y hy => herr y (List.mem_cons_of_mem _ hy)) hnext hcf.2
      refine ⟨ih.1, ?_⟩
      rw [ih.2, hcnt, List.filter_cons_of_pos hel, List.length_cons]
      omega
    · rw [if_neg hel]
      have hskip : (e :: es).filter eligibleB = es.filter eligibleB :=
        List.filter_cons_of_neg (by simpa using hel)
      rw [hskip] at hcf
      have ih := walkFold_count dirPath es acc
        (fun y hy => herr y (List.mem_cons_of_mem _ hy))
        (fun y hy => hfresh y (List.mem_cons_of_mem _ hy)) hcf
      rw [hskip]
      exact ih

/-- C6: over any error-free walk whose eligible files sit at pairwise
non-nested positions (as on a real filesystem), the walk succeeds without an
error - every ineligible file is skipped silently - and the number of
document nodes in the tree equals the number of walked regular files with
extension .md whose base name is not README.md. -/
theorem C6_doc_count (dirPath : String) (events : List WalkEntry)
    (herr : ∀ e ∈ events, e.err = none)
    (hcf : conflictFreeB ((events.filter eligibleB).map (entryPos dirPath)) = true) :
    (ListMDFiles dirPath events).2 = none ∧
    countDocs (ListMDFiles dirPath events).1 =
      (events.filter eligibleB).length := by
  have hfresh : ∀ e ∈ events, eligibleB e = true →
      existsAt rootInfo (entryPos dirPath e) = false := by
    intro e _ _
    exact existsAt_nil_children true "" 0 "." _ _
  have hmain := walkFold_count dirPath events rootInfo herr hfresh hcf
  refine ⟨hmain.1, ?_⟩
  show countDocs (walkFold dirPath rootInfo events).1 = _
  rw [hmain.2]
  have h0 : countDocs rootInfo = 0 := rfl
  rw [h0, Nat.zero_add]

/-- Concrete use of C6 on the nested walk: three documents counted. -/
theorem C6_doc_count_witness :
    (∀ e ∈ evsC6, e.err = none) ∧
    conflictFreeB ((evsC6.filter eligibleB).map (entryPos "/r")) = true ∧
    ((ListMDFiles "/r" evsC6).2 = none ∧
     countDocs (ListMDFiles "/r" evsC6).1 = (evsC6.filter eligibleB).length) :=
  ⟨by decide, by decide, C6_doc_count "/r" evsC6 (by decide) (by decide)⟩

end Mdtocgen
